import Mathlib

/-!
Verification development for the medical-PDF page sorter (`src/app.py`).

The program classifies each page of a PDF into CERTIFICADO / INFORME / OTROS
(certificate / report / other) using layered text heuristics, then assembles
derived documents.  This file is a shallow embedding of that code:

* page texts are `List Char` (`Str`);
* the two Unicode facilities used by `normalize_text_hard`
  (`unicodedata.normalize("NFD", ·)` and the combining-mark test
  `unicodedata.category(ch) == "Mn"`) are parameters of the embedding,
  bundled in `UModel`; everything downstream of the normalizer works on
  plain ASCII, where their behavior is pinned down by explicit hypotheses;
* each regular expression of the source is translated, at its call sites,
  into an executable matcher over the normalized alphabet (the translation
  of each pattern is documented at its definition);
* the external collaborators (pypdf reader/writer, Streamlit) are modelled
  by their interface behavior only: a document is its list of extracted page
  texts, and the PDF writer is a parameter `build` of `write_pdf_to_bytes`.
-/

/-- Page texts and normalized texts are lists of characters. -/
abbrev Str := List Char

/-- Model of the host Unicode facilities used by `normalize_text_hard`:
`nfd` models `unicodedata.normalize("NFD", ·)` as a per-character canonical
decomposition (applied by `List.flatMap`), and `mn` models the predicate
`unicodedata.category(ch) == "Mn"` (is the character a combining mark). -/
structure UModel where
  nfd : Char → List Char
  mn : Char → Bool

/-- Degenerate Unicode model: identity decomposition and no combining marks.
It agrees with the real Unicode data on plain ASCII input, which is all the
concrete witnesses below use. -/
def uId : UModel := ⟨fun c => [c], fun _ => false⟩

/-- `re.sub(r"[^a-zA-Z0-9]+", " ", s)`: replace each maximal run of
characters that are not ASCII alphanumerics by a single space.  The flag
records whether the scan is currently inside such a run (whose single
replacement space has already been emitted). -/
def subRunsAux : Bool → Str → Str
  | _, [] => []
  | inRun, c :: cs =>
    if c.isAlphanum then c :: subRunsAux false cs
    else if inRun then subRunsAux true cs
    else ' ' :: subRunsAux true cs

/-- `re.sub(r"[^a-zA-Z0-9]+", " ", s)`. -/
def subRuns (s : Str) : Str := subRunsAux false s

/-- `re.sub(r"\s+", " ", s)`: replace each maximal whitespace run by a
single space. -/
def collapseWsAux : Bool → Str → Str
  | _, [] => []
  | inRun, c :: cs =>
    if c.isWhitespace then
      if inRun then collapseWsAux true cs else ' ' :: collapseWsAux true cs
    else c :: collapseWsAux false cs

/-- `re.sub(r"\s+", " ", s)`. -/
def collapseWs (s : Str) : Str := collapseWsAux false s

/-- Removal of trailing whitespace (the right half of `str.strip()`). -/
def dropTrailingWs : Str → Str
  | [] => []
  | c :: cs =>
    let r := dropTrailingWs cs
    if r.isEmpty && c.isWhitespace then [] else c :: r

/-- `str.strip()`: drop leading and trailing whitespace. -/
def stripStr (s : Str) : Str := dropTrailingWs (s.dropWhile Char.isWhitespace)

/-- `normalize_text_hard` from `src/app.py`: NFD-decompose, discard combining
marks, replace non-alphanumeric runs by single spaces, lowercase, strip, and
collapse whitespace.  `str.lower()` is modelled by `Char.toLower`; at the
point of the pipeline where it is applied the string contains only ASCII
alphanumerics and spaces, on which the two agree. -/
def normalize_text_hard (u : UModel) (s : Str) : Str :=
  if s.isEmpty then []
  else
    collapseWs (stripStr (List.map Char.toLower
      (subRuns ((s.flatMap u.nfd).filter (fun c => !u.mn c)))))

/-- `str.splitlines()` worker; `acc` holds the current line reversed.  A line
break at the very end of the input does not produce a trailing empty line. -/
def splitlinesGo (acc : Str) : Str → List Str
  | [] => [acc.reverse]
  | '\r' :: '\n' :: rest =>
    acc.reverse :: (if rest.isEmpty then [] else splitlinesGo [] rest)
  | '\n' :: rest =>
    acc.reverse :: (if rest.isEmpty then [] else splitlinesGo [] rest)
  | '\r' :: rest =>
    acc.reverse :: (if rest.isEmpty then [] else splitlinesGo [] rest)
  | c :: rest => splitlinesGo (c :: acc) rest

/-- `str.splitlines()`, modelling the line boundaries `\n`, `\r` and `\r\n`
(the boundaries that occur in extracted PDF text). `"".splitlines() == []`. -/
def splitlines (s : Str) : List Str :=
  if s.isEmpty then [] else splitlinesGo [] s

/-- `TOP_LINES_K` from `src/app.py`. -/
def TOP_LINES_K : Nat := 8

/-- `STRICT_START` from `src/app.py`. -/
def STRICT_START : Bool := false

/-- `RELAXED_FALLBACK` from `src/app.py`. -/
def RELAXED_FALLBACK : Bool := true

/-- `CERT_NEAR_WINDOW` from `src/app.py`. -/
def CERT_NEAR_WINDOW : Nat := 200

/-- `first_nonempty_lines` from `src/app.py`: split into lines, normalize
each, and keep the first `k` whose normalization is non-empty (the source's
early-exit loop is the same function as filter-then-take). -/
def first_nonempty_lines (u : UModel) (text : Str) (k : Nat) : List Str :=
  ((((splitlines text).map (normalize_text_hard u)).filter
    (fun n => !n.isEmpty))).take k

/-- Does the word `w` occur as a contiguous substring of `s` starting at
index `i`?  (`s[i : i + len w] == w`.) -/
def substrAt (w s : Str) (i : Nat) : Bool := (s.drop i).take w.length == w

/-- Python's `w in s` substring test. -/
def containsStr (w s : Str) : Bool := (List.range (s.length + 1)).any (substrAt w s)

/-- The regex `\w` class, restricted to ASCII: alphanumerics and underscore
(the inputs here are normalized text, which contains only `[a-z0-9 ]`). -/
def isWordChar (c : Char) : Bool := c.isAlphanum || c == '_'

/-- Is there a `\b` word boundary immediately before index `i` of `s`?
True at the start of the string or when the previous character is not a
word character. -/
def leftBoundary (s : Str) (i : Nat) : Bool :=
  match i with
  | 0 => true
  | j + 1 =>
    match s.drop j with
    | [] => true
    | c :: _ => !isWordChar c

/-- Is there a `\b` word boundary immediately before index `e` of `s`, seen
from the left (end of string or a non-word character at `e`)? -/
def rightBoundary (s : Str) (e : Nat) : Bool :=
  match s.drop e with
  | [] => true
  | c :: _ => !isWordChar c

/-- `re.search(rf"\b{w}\b", s)` for a literal word `w` consisting of word
characters: `w` occurs at some position with word boundaries on both sides. -/
def wordAt (w s : Str) (i : Nat) : Bool :=
  substrAt w s i && leftBoundary s i && rightBoundary s (i + w.length)

/-- `re.search(rf"\b{w}\b", s)` for a literal word `w`. -/
def searchWord (w s : Str) : Bool := (List.range (s.length + 1)).any (wordAt w s)

/-- End position of the run of word characters starting at index `j`
(the extent of a greedy `\w*` starting there). -/
def wordRunEnd (s : Str) (j : Nat) : Nat :=
  j + ((s.drop j).takeWhile isWordChar).length

/-- The list of `m.end()` positions produced by
`re.finditer(r"\bcertificad\w*\b", s)`: every occurrence of the literal
`certificad` that starts at a word boundary, extended through the greedy
`\w*` to the end of its word (after which the trailing `\b` always holds).
Since each match spans a whole space-delimited word and a word contains at
most one boundary-preceded occurrence, these are exactly the `finditer`
matches. -/
def certAnchorEnds (s : Str) : List Nat :=
  (List.range (s.length + 1)).filterMap (fun i =>
    if substrAt ("certificad".toList) s i && leftBoundary s i then
      some (wordRunEnd s (i + ("certificad".toList).length))
    else none)

/-- The slice `s[e : e + CERT_NEAR_WINDOW]` inspected after an anchor. -/
def windowAfter (s : Str) (e : Nat) : Str := (s.drop e).take CERT_NEAR_WINDOW

/-- `re.search(r"(medic\w*|ocupacional)", w)`: since `\w*` may match the
empty string, this succeeds exactly when `medic` or `ocupacional` occurs as
a substring. -/
def modInWindow (w : Str) : Bool :=
  containsStr ("medic".toList) w || containsStr ("ocupacional".toList) w

/-- `search_cert_proximity` from `src/app.py`.  Short-circuits to `false`
when neither modifier substring `medic` nor `ocupacional` occurs anywhere
in the page; otherwise rule A scans every `certificad…` anchor for the word
`aptitud` in the following `CERT_NEAR_WINDOW` characters, and rule B scans
the same anchors for a modifier together with `aptitud` in that window. -/
def search_cert_proximity (full_norm : Str) : Bool :=
  let has_mod := containsStr ("medic".toList) full_norm
    || containsStr ("ocupacional".toList) full_norm
  if !has_mod then false
  else
    ((certAnchorEnds full_norm).any (fun e =>
        searchWord ("aptitud".toList) (windowAfter full_norm e)))
    || ((certAnchorEnds full_norm).any (fun e =>
        modInWindow (windowAfter full_norm e)
          && searchWord ("aptitud".toList) (windowAfter full_norm e)))

/-- Variant of `search_cert_proximity` stated by claim C10: the modifier
short-circuit followed by rule A only (no rule B pass). -/
def search_cert_proximity_ruleA (full_norm : Str) : Bool :=
  let has_mod := containsStr ("medic".toList) full_norm
    || containsStr ("ocupacional".toList) full_norm
  if !has_mod then false
  else
    (certAnchorEnds full_norm).any (fun e =>
      searchWord ("aptitud".toList) (windowAfter full_norm e))

/-- One token of a title pattern: either a fixed-length literal with
alternatives (compiling character classes such as `[oa]` and `[eé]`), or a
whitespace run `\s+`. -/
inductive RTok where
  | lit (alts : List Str)
  | sp

/-- All end positions of matches of a token sequence starting at index `i`
of `s`.  For `\s+` every split of the whitespace run is tried, which gives
exactly the regex-backtracking semantics. -/
def matchEnds : List RTok → Str → Nat → List Nat
  | [], _, i => [i]
  | RTok.lit alts :: ts, s, i =>
    alts.flatMap (fun a => if substrAt a s i then matchEnds ts s (i + a.length) else [])
  | RTok.sp :: ts, s, i =>
    (List.range (((s.drop i).takeWhile Char.isWhitespace).length)).flatMap
      (fun j => matchEnds ts s (i + j + 1))

/-- A pattern is an alternation of token sequences (optional groups such as
`(?:de\s+)?` are expanded into the two alternative sequences, which has the
same `re.search` truth value). -/
abbrev RPat := List (List RTok)

/-- Does the sequence match starting at `i`? -/
def seqMatchAt (seq : List RTok) (s : Str) (i : Nat) : Bool :=
  !(matchEnds seq s i).isEmpty

/-- `re.search(pattern, s)`: some alternative matches at some position. -/
def reSearch (pat : RPat) (s : Str) : Bool :=
  pat.any (fun seq => (List.range (s.length + 1)).any (seqMatchAt seq s))

/-- `re.search(rf"^\s*{pattern}\b", s)` (the `strict_start` mode of
`has_title_in_lines`): the match must start after some prefix of the leading
whitespace run and be followed by a word boundary. -/
def reSearchStrict (pat : RPat) (s : Str) : Bool :=
  pat.any (fun seq =>
    (List.range ((s.takeWhile Char.isWhitespace).length + 1)).any (fun j =>
      (matchEnds seq s j).any (fun e => rightBoundary s e)))

/-- `certificad[oa]`. -/
def certLit : RTok := RTok.lit ["certificado".toList, "certificada".toList]

/-- `m[eé]dic[ao]`. -/
def medicAO : RTok :=
  RTok.lit ["medica".toList, "medico".toList, "médica".toList, "médico".toList]

/-- `m[eé]dico`. -/
def medicO : RTok := RTok.lit ["medico".toList, "médico".toList]

/-- The literal `de`. -/
def deLit : RTok := RTok.lit ["de".toList]

/-- The literal `aptitud`. -/
def aptitudLit : RTok := RTok.lit ["aptitud".toList]

/-- The literal `ocupacional`. -/
def ocupacionalLit : RTok := RTok.lit ["ocupacional".toList]

/-- The literal `informe`. -/
def informeLit : RTok := RTok.lit ["informe".toList]

/-- `PAT_CERT_TITLES` from `src/app.py`, pattern by pattern in source order;
the optional group of the last pattern `certificad[oa]\s+(?:de\s+)?aptitud`
is expanded into its two alternatives. -/
def PAT_CERT_TITLES : List RPat := [
  [[certLit, RTok.sp, deLit, RTok.sp, aptitudLit, RTok.sp, medicAO, RTok.sp, ocupacionalLit]],
  [[certLit, RTok.sp, medicAO, RTok.sp, ocupacionalLit, RTok.sp, deLit, RTok.sp, aptitudLit]],
  [[certLit, RTok.sp, deLit, RTok.sp, aptitudLit, RTok.sp, ocupacionalLit]],
  [[certLit, RTok.sp, ocupacionalLit, RTok.sp, deLit, RTok.sp, aptitudLit]],
  [[certLit, RTok.sp, medicAO, RTok.sp, deLit, RTok.sp, aptitudLit]],
  [[certLit, RTok.sp, deLit, RTok.sp, aptitudLit, RTok.sp, medicAO]],
  [[certLit, RTok.sp, deLit, RTok.sp, aptitudLit], [certLit, RTok.sp, aptitudLit]]
]

/-- `PAT_INFO` from `src/app.py`:
`(?:informe\s+m[eé]dico(?:\s+ocupacional)?)`, with the trailing optional
group expanded into its two alternatives. -/
def PAT_INFO : RPat := [
  [informeLit, RTok.sp, medicO],
  [informeLit, RTok.sp, medicO, RTok.sp, ocupacionalLit]
]

/-- `has_title_in_lines` from `src/app.py`: search the pattern in each of
the first `TOP_LINES_K` non-empty normalized lines, anchored at the line
start when `strict_start` is set. -/
def has_title_in_lines (u : UModel) (text : Str) (pat : RPat)
    (strict_start : Bool) : Bool :=
  (first_nonempty_lines u text TOP_LINES_K).any (fun ln =>
    if strict_start then reSearchStrict pat ln else reSearch pat ln)

/-- `has_token_in_top_lines` from `src/app.py`, at its single call site
where the token pattern is `\baptitud\b`: a word search in each of the
first `k` non-empty normalized lines. -/
def has_token_in_top_lines (u : UModel) (text : Str) (tok : Str) (k : Nat) : Bool :=
  (first_nonempty_lines u text k).any (fun ln => searchWord tok ln)

/-- `is_cert_page` from `src/app.py`: (1) title patterns in the top lines;
(2) under `RELAXED_FALLBACK`, the title patterns over the whole normalized
text, then the proximity heuristic; (3) the weak rule — `aptitud` as a word
in the top lines together with a `certificad` substring or a
medical/occupational context substring anywhere in the page. -/
def is_cert_page (u : UModel) (text : Str) : Bool :=
  (PAT_CERT_TITLES.any (fun pat => has_title_in_lines u text pat STRICT_START))
  || (RELAXED_FALLBACK &&
       (PAT_CERT_TITLES.any (fun pat => reSearch pat (normalize_text_hard u text))
        || search_cert_proximity (normalize_text_hard u text)))
  || (has_token_in_top_lines u text ("aptitud".toList) TOP_LINES_K
       && (containsStr ("certificad".toList) (normalize_text_hard u text)
           || (containsStr ("medic".toList) (normalize_text_hard u text)
               || containsStr ("ocupacional".toList) (normalize_text_hard u text))))

/-- `is_info_page` from `src/app.py`: the `PAT_INFO` title in the top lines,
or, under `RELAXED_FALLBACK`, anywhere in the normalized full text. -/
def is_info_page (u : UModel) (text : Str) : Bool :=
  has_title_in_lines u text PAT_INFO STRICT_START
  || (RELAXED_FALLBACK && reSearch PAT_INFO (normalize_text_hard u text))

/-- A page's assigned category. -/
inductive Category where
  | cert
  | informe
  | otros
deriving DecidableEq, Repr

/-- One entry of the classification log: either the per-page label line
`p.{i+1:03d} => {category}` (abstracted by the 0-based index and category
that determine it), or the adjustment line
`[ajuste] {n} págs quitadas de INFORME por solape con CERT.` (abstracted by
its count `n`). -/
inductive LogEntry where
  | page (idx : Nat) (cat : Category)
  | ajuste (n : Nat)
deriving DecidableEq, Repr

/-- The per-page loop of `classify_pages`, processing the pages of `texts`
with indices starting at `i`: for each page, `is_cert_page` is evaluated
first and `is_info_page` only if it failed (`info = False if cert else
is_info_page(text)`), the index is inserted in the matching set, and a log
line is appended.  The source's left fold building the log by appending is
written as a right recursion consing onto the log of the remaining pages,
which produces the same sets and the same log in the same order. -/
def classifyLoop (u : UModel) : Nat → List Str → Finset Nat × Finset Nat × List LogEntry
  | _, [] => (∅, ∅, [])
  | i, t :: ts =>
    let cert := is_cert_page u t
    let info := if cert then false else is_info_page u t
    let rest := classifyLoop u (i + 1) ts
    if cert then
      (insert i rest.1, rest.2.1, LogEntry.page i Category.cert :: rest.2.2)
    else if info then
      (rest.1, insert i rest.2.1, LogEntry.page i Category.informe :: rest.2.2)
    else
      (rest.1, rest.2.1, LogEntry.page i Category.otros :: rest.2.2)

/-- `classify_pages` from `src/app.py`: the per-page loop over all pages,
followed by the residual safety pass `overlap = cert_set & info_set`; when
the overlap is non-empty it is removed from the INFORME set and an
adjustment entry with its size is appended to the log. -/
def classify_pages (u : UModel) (texts : List Str) :
    Finset Nat × Finset Nat × List LogEntry :=
  let r := classifyLoop u 0 texts
  let overlap := r.1 ∩ r.2.1
  if overlap = ∅ then (r.1, r.2.1, r.2.2)
  else (r.1, r.2.1 \ overlap, r.2.2 ++ [LogEntry.ajuste overlap.card])

/-- `hist_set = all_set - cert_set - info_set` from the assembly code of
`src/app.py`: the residual OTROS page set. -/
def hist_set (total : Nat) (cert_set info_set : Finset Nat) : Finset Nat :=
  (Finset.range total \ cert_set) \ info_set

/-- The four page orderings the app derives from a classification:
`cert = sorted(cert_set)`, `info = sorted(info_set)`,
`hist = sorted(hist_set)` and the dossier ordering
`legajo = cert + info + hist`. -/
structure Assembly where
  cert : List Nat
  info : List Nat
  hist : List Nat
  legajo : List Nat
deriving DecidableEq, Repr

/-- The document-assembly section of `src/app.py` (the lines following
`classify_pages` in the upload handler), producing the four orderings and
the classification log. -/
def assemble (u : UModel) (texts : List Str) : Assembly × List LogEntry :=
  let r := classify_pages u texts
  let h := hist_set texts.length r.1 r.2.1
  let cert := r.1.sort (· ≤ ·)
  let info := r.2.1.sort (· ≤ ·)
  let hist := h.sort (· ≤ ·)
  (⟨cert, info, hist, cert ++ info ++ hist⟩, r.2.2)

/-- `write_pdf_to_bytes` from `src/app.py`: the empty index list returns the
empty byte string `b""` (no document at all); otherwise the external pypdf
writer — modelled by the parameter `build` — produces the document bytes. -/
def write_pdf_to_bytes (build : List Nat → List UInt8) (idxs : List Nat) :
    List UInt8 :=
  if idxs.isEmpty then [] else build idxs

/-- How the app presents one category's result: a download button when the
produced byte string is non-empty (`if pdf_cert:` — bytes truthiness), and a
disabled "(sin páginas)" button, not an error, when it is empty. -/
inductive ButtonState where
  | download
  | disabledNoPages
deriving DecidableEq, Repr

/-- The download-button branch of `src/app.py` for one category. -/
def download_button_state (pdf : List UInt8) : ButtonState :=
  if pdf.isEmpty then ButtonState.disabledNoPages else ButtonState.download

/-- The category the per-page loop assigns to a page with text `t`:
CERTIFICADO if `is_cert_page` holds, otherwise INFORME if `is_info_page`
holds, otherwise OTROS. -/
def pageCategory (u : UModel) (t : Str) : Category :=
  if is_cert_page u t then Category.cert
  else if is_info_page u t then Category.informe
  else Category.otros

/-- A page text that matches both a certificate title pattern and the
report pattern (used by the concrete witnesses below). -/
def dualText : Str :=
  "certificado de aptitud medica ocupacional informe medico".toList

/-- Characters that can occur in the output of `normalize_text_hard`:
ASCII alphanumerics fixed by `Char.toLower` (lowercase letters and digits)
and the space.  Real Unicode NFD leaves every such character unchanged and
classifies none of them as a combining mark, which is the content of the
hypotheses of the idempotence theorem below. -/
def outChar (c : Char) : Bool :=
  (c.isAlphanum && (Char.toLower c == c)) || c == ' '

/-- Characters alive after the non-alphanumeric-run substitution:
ASCII alphanumerics and the space. -/
def midChar (c : Char) : Bool := c.isAlphanum || c == ' '

/-- No two adjacent whitespace characters. -/
def noDblWs : Str → Bool
  | a :: b :: t => !(a.isWhitespace && b.isWhitespace) && noDblWs (b :: t)
  | _ => true

/-- The first character, if any, is not whitespace. -/
def headNotWs : Str → Bool
  | [] => true
  | c :: _ => !c.isWhitespace

/-- The last character, if any, is not whitespace. -/
def lastNotWs : Str → Bool
  | [] => true
  | [c] => !c.isWhitespace
  | _ :: c :: t => lastNotWs (c :: t)

theorem classifyLoop_cons_fst (u : UModel) (i : Nat) (t : Str) (ts : List Str) :
    (classifyLoop u i (t :: ts)).1 =
      if is_cert_page u t then insert i (classifyLoop u (i + 1) ts).1
      else (classifyLoop u (i + 1) ts).1 := by
  simp only [classifyLoop]
  by_cases hc : is_cert_page u t
  · simp [hc]
  · by_cases hi : is_info_page u t <;> simp [hc, hi]

theorem classifyLoop_cons_snd (u : UModel) (i : Nat) (t : Str) (ts : List Str) :
    (classifyLoop u i (t :: ts)).2.1 =
      if is_cert_page u t = false ∧ is_info_page u t = true then
        insert i (classifyLoop u (i + 1) ts).2.1
      else (classifyLoop u (i + 1) ts).2.1 := by
  simp only [classifyLoop]
  by_cases hc : is_cert_page u t
  · simp [hc]
  · by_cases hi : is_info_page u t <;> simp [hc, hi]

theorem classifyLoop_cons_log (u : UModel) (i : Nat) (t : Str) (ts : List Str) :
    (classifyLoop u i (t :: ts)).2.2 =
      LogEntry.page i (pageCategory u t) :: (classifyLoop u (i + 1) ts).2.2 := by
  simp only [classifyLoop, pageCategory]
  by_cases hc : is_cert_page u t
  · simp [hc]
  · by_cases hi : is_info_page u t <;> simp [hc, hi]

theorem classifyLoop_mem_cert (u : UModel) (ts : List Str) :
    ∀ i j, (j ∈ (classifyLoop u i ts).1 ↔
      i ≤ j ∧ j - i < ts.length ∧ is_cert_page u (ts.getD (j - i) []) = true) := by
  induction ts with
  | nil => intro i j; simp [classifyLoop]
  | cons t ts ih =>
    intro i j
    rw [classifyLoop_cons_fst]
    simp only [List.length_cons]
    by_cases hc : is_cert_page u t
    · rw [if_pos hc, Finset.mem_insert, ih (i + 1) j]
      constructor
      · rintro (rfl | ⟨h1, h2, h3⟩)
        · exact ⟨le_refl j, by simp, by simpa using hc⟩
        · refine ⟨by omega, by omega, ?_⟩
          have he : j - i = (j - (i + 1)) + 1 := by omega
          rw [he]; simpa using h3
      · rintro ⟨h1, h2, h3⟩
        rcases Nat.eq_or_lt_of_le h1 with rfl | hlt
        · exact Or.inl rfl
        · refine Or.inr ⟨by omega, by omega, ?_⟩
          have he : j - i = (j - (i + 1)) + 1 := by omega
          rw [he] at h3; simpa using h3
    · rw [if_neg hc, ih (i + 1) j]
      constructor
      · rintro ⟨h1, h2, h3⟩
        refine ⟨by omega, by omega, ?_⟩
        have he : j - i = (j - (i + 1)) + 1 := by omega
        rw [he]; simpa using h3
      · rintro ⟨h1, h2, h3⟩
        rcases Nat.eq_or_lt_of_le h1 with rfl | hlt
        · exact absurd (by simpa using h3) hc
        · refine ⟨by omega, by omega, ?_⟩
          have he : j - i = (j - (i + 1)) + 1 := by omega
          rw [he] at h3; simpa using h3

theorem classifyLoop_mem_info (u : UModel) (ts : List Str) :
    ∀ i j, (j ∈ (classifyLoop u i ts).2.1 ↔
      i ≤ j ∧ j - i < ts.length ∧ is_cert_page u (ts.getD (j - i) []) = false
        ∧ is_info_page u (ts.getD (j - i) []) = true) := by
  induction ts with
  | nil => intro i j; simp [classifyLoop]
  | cons t ts ih =>
    intro i j
    rw [classifyLoop_cons_snd]
    simp only [List.length_cons]
    by_cases hb : is_cert_page u t = false ∧ is_info_page u t = true
    · rw [if_pos hb, Finset.mem_insert, ih (i + 1) j]
      constructor
      · rintro (rfl | ⟨h1, h2, h3, h4⟩)
        · exact ⟨le_refl j, by simp, by simpa using hb.1, by simpa using hb.2⟩
        · refine ⟨by omega, by omega, ?_, ?_⟩ <;>
            · have he : j - i = (j - (i + 1)) + 1 := by omega
              rw [he]; simp only [List.getD_cons_succ]
              first | exact h3 | exact h4
      · rintro ⟨h1, h2, h3, h4⟩
        rcases Nat.eq_or_lt_of_le h1 with rfl | hlt
        · exact Or.inl rfl
        · refine Or.inr ⟨by omega, by omega, ?_, ?_⟩ <;>
            · have he : j - i = (j - (i + 1)) + 1 := by omega
              rw [he] at h3 h4; simp only [List.getD_cons_succ] at h3 h4
              first | exact h3 | exact h4
    · rw [if_neg hb, ih (i + 1) j]
      constructor
      · rintro ⟨h1, h2, h3, h4⟩
        refine ⟨by omega, by omega, ?_, ?_⟩ <;>
          · have he : j - i = (j - (i + 1)) + 1 := by omega
            rw [he]; simp only [List.getD_cons_succ]
            first | exact h3 | exact h4
      · rintro ⟨h1, h2, h3, h4⟩
        rcases Nat.eq_or_lt_of_le h1 with rfl | hlt
        · exact absurd ⟨by simpa using h3, by simpa using h4⟩ hb
        · refine ⟨by omega, by omega, ?_, ?_⟩ <;>
            · have he : j - i = (j - (i + 1)) + 1 := by omega
              rw [he] at h3 h4; simp only [List.getD_cons_succ] at h3 h4
              first | exact h3 | exact h4

theorem classifyLoop_log (u : UModel) (ts : List Str) :
    ∀ i, (classifyLoop u i ts).2.2 =
      (List.range ts.length).map
        (fun k => LogEntry.page (i + k) (pageCategory u (ts.getD k []))) := by
  induction ts with
  | nil => intro i; simp [classifyLoop]
  | cons t ts ih =>
    intro i
    rw [classifyLoop_cons_log, ih (i + 1)]
    simp only [List.length_cons, List.range_succ_eq_map, List.map_cons, List.map_map,
      Nat.add_zero, List.getD_cons_zero]
    refine congrArg₂ List.cons rfl ?_
    refine List.map_congr_left (fun k _ => ?_)
    simp only [Function.comp_apply, List.getD_cons_succ]
    have : i + 1 + k = i + (k + 1) := by omega
    rw [this]

theorem classifyLoop_disjoint (u : UModel) (ts : List Str) (i : Nat) :
    (classifyLoop u i ts).1 ∩ (classifyLoop u i ts).2.1 = ∅ := by
  ext j
  simp only [Finset.mem_inter, Finset.not_mem_empty, iff_false, not_and]
  intro h1 h2
  rw [classifyLoop_mem_cert] at h1
  rw [classifyLoop_mem_info] at h2
  rw [h1.2.2] at h2
  exact absurd h2.2.2.1 (by simp)

/-- Since the per-page loop never puts an index in both sets, the residual
safety pass of `classify_pages` finds an empty overlap and changes nothing. -/
theorem classify_pages_eq_loop (u : UModel) (texts : List Str) :
    classify_pages u texts = classifyLoop u 0 texts := by
  simp only [classify_pages, classifyLoop_disjoint, if_pos]

/-- C1: for every classified document the three final index sets
CERTIFICATE (`cert_set`), REPORT (`info_set`) and OTHER (`hist_set`, the
residual of all pages minus the first two) are pairwise disjoint, and their
union is the full page index range `{0, …, total−1}`. -/
theorem partition_of_pages (u : UModel) (texts : List Str) :
    ((classify_pages u texts).1 ∩ (classify_pages u texts).2.1 = ∅
     ∧ (classify_pages u texts).1 ∩
         hist_set texts.length (classify_pages u texts).1 (classify_pages u texts).2.1 = ∅
     ∧ (classify_pages u texts).2.1 ∩
         hist_set texts.length (classify_pages u texts).1 (classify_pages u texts).2.1 = ∅)
    ∧ (classify_pages u texts).1 ∪ (classify_pages u texts).2.1 ∪
        hist_set texts.length (classify_pages u texts).1 (classify_pages u texts).2.1
      = Finset.range texts.length := by
  rw [classify_pages_eq_loop]
  have hcs : ∀ j, j ∈ (classifyLoop u 0 texts).1 → j < texts.length := by
    intro j hj
    have h := (classifyLoop_mem_cert u texts 0 j).mp hj
    omega
  have his : ∀ j, j ∈ (classifyLoop u 0 texts).2.1 → j < texts.length := by
    intro j hj
    have h := (classifyLoop_mem_info u texts 0 j).mp hj
    omega
  refine ⟨⟨classifyLoop_disjoint u texts 0, ?_, ?_⟩, ?_⟩
  · ext j
    simp only [hist_set, Finset.mem_inter, Finset.mem_sdiff, Finset.mem_range,
      Finset.not_mem_empty, iff_false]
    tauto
  · ext j
    simp only [hist_set, Finset.mem_inter, Finset.mem_sdiff, Finset.mem_range,
      Finset.not_mem_empty, iff_false]
    tauto
  · ext j
    simp only [hist_set, Finset.mem_union, Finset.mem_sdiff, Finset.mem_range]
    have h1 := hcs j
    have h2 := his j
    tauto

/-- C2: for every classified document, the DOSSIER (legajo) ordering is the
exact concatenation of the CERTIFICATE indices in ascending order, the
REPORT indices in ascending order, and the OTHER indices in ascending
order — a concatenation of the three sorted segments, not a merge. -/
theorem dossier_is_concat (u : UModel) (texts : List Str) :
    (assemble u texts).1.legajo =
      (assemble u texts).1.cert ++ (assemble u texts).1.info ++ (assemble u texts).1.hist
    ∧ (assemble u texts).1.cert = (classify_pages u texts).1.sort (· ≤ ·)
    ∧ (assemble u texts).1.info = (classify_pages u texts).2.1.sort (· ≤ ·)
    ∧ (assemble u texts).1.hist =
        (hist_set texts.length (classify_pages u texts).1
          (classify_pages u texts).2.1).sort (· ≤ ·)
    ∧ List.Sorted (· ≤ ·) (assemble u texts).1.cert
    ∧ List.Sorted (· ≤ ·) (assemble u texts).1.info
    ∧ List.Sorted (· ≤ ·) (assemble u texts).1.hist := by
  refine ⟨rfl, rfl, rfl, rfl, ?_, ?_, ?_⟩ <;> exact Finset.sort_sorted _ _

/-- C3: a page whose text satisfies both the CERTIFICATE rule set and the
REPORT rule set is finally classified CERTIFICATE: its index is in the
CERTIFICATE set and not in the REPORT set. -/
theorem cert_priority (u : UModel) (texts : List Str) (i : Nat)
    (hi : i < texts.length)
    (hc : is_cert_page u (texts.getD i []) = true)
    (_hinfo : is_info_page u (texts.getD i []) = true) :
    i ∈ (classify_pages u texts).1 ∧ i ∉ (classify_pages u texts).2.1 := by
  rw [classify_pages_eq_loop]
  constructor
  · rw [classifyLoop_mem_cert]
    exact ⟨Nat.zero_le i, by simpa using hi, by simpa using hc⟩
  · intro hmem
    rw [classifyLoop_mem_info] at hmem
    have h := hmem.2.2.1
    simp only [Nat.sub_zero] at h
    rw [hc] at h
    exact absurd h (by simp)

set_option maxRecDepth 10000 in
/-- Witness for C3 at a concrete one-page document whose page matches both
rule sets. -/
theorem cert_priority_witness :
    0 ∈ (classify_pages uId [dualText]).1 ∧ 0 ∉ (classify_pages uId [dualText]).2.1 :=
  cert_priority uId [dualText] 0 (by decide) (by decide) (by decide)

set_option maxRecDepth 10000 in
/-- C4 as stated is false on the code: for this one-page document the page
matches both a certificate pattern and the report pattern, yet the
classification log contains no adjustment entry at all (in particular none
of count 1), because the per-page short-circuit keeps the page out of the
REPORT set from the start and the overlap found by the residual pass is
empty. -/
theorem report_overlap_counterexample :
    is_cert_page uId dualText = true ∧ is_info_page uId dualText = true
    ∧ LogEntry.ajuste 1 ∉ (classify_pages uId [dualText]).2.2 := by
  decide

/-- C4 amended: a page matching both a certificate pattern and the report
pattern never enters the REPORT set in the first place (the REPORT check is
skipped once CERTIFICATE matched), and the log carries no adjustment entry
of any count, since the overlap removed by the residual pass is always
empty. -/
theorem report_overlap_amended (u : UModel) (texts : List Str) (i : Nat)
    (hc : is_cert_page u (texts.getD i []) = true)
    (_hinfo : is_info_page u (texts.getD i []) = true) :
    i ∉ (classify_pages u texts).2.1
    ∧ ∀ n, LogEntry.ajuste n ∉ (classify_pages u texts).2.2 := by
  rw [classify_pages_eq_loop]
  constructor
  · intro hmem
    rw [classifyLoop_mem_info] at hmem
    have h := hmem.2.2.1
    simp only [Nat.sub_zero] at h
    rw [hc] at h
    exact absurd h (by simp)
  · intro n hmem
    rw [classifyLoop_log] at hmem
    simp only [List.mem_map, List.mem_range] at hmem
    obtain ⟨k, -, hk⟩ := hmem
    exact LogEntry.noConfusion hk

set_option maxRecDepth 10000 in
/-- Witness for the amended C4 at the same concrete document. -/
theorem report_overlap_amended_witness :
    0 ∉ (classify_pages uId [dualText]).2.1
    ∧ ∀ n, LogEntry.ajuste n ∉ (classify_pages uId [dualText]).2.2 :=
  report_overlap_amended uId [dualText] 0 (by decide) (by decide)

/-- C5: after the per-page loop and before the residual safety pass, the
CERTIFICATE and REPORT sets are already disjoint (the REPORT check is
skipped whenever CERTIFICATE succeeded), and classification is total: the
log carries exactly one entry per page index, holding that page's single
assigned category. -/
theorem loop_disjoint_and_total (u : UModel) (texts : List Str) :
    (classifyLoop u 0 texts).1 ∩ (classifyLoop u 0 texts).2.1 = ∅
    ∧ (classifyLoop u 0 texts).2.2 =
        (List.range texts.length).map
          (fun k => LogEntry.page k (pageCategory u (texts.getD k []))) := by
  refine ⟨classifyLoop_disjoint u texts 0, ?_⟩
  have h := classifyLoop_log u texts 0
  simpa using h

/-- C7: when neither modifier substring `medic` nor `ocupacional` occurs
anywhere in the normalized page text, `search_cert_proximity` returns
`false` outright — the modifier check short-circuits before any anchor
window is inspected. -/
theorem proximity_requires_modifier (s : Str)
    (h1 : containsStr ("medic".toList) s = false)
    (h2 : containsStr ("ocupacional".toList) s = false) :
    search_cert_proximity s = false := by
  rw [search_cert_proximity, h1, h2]
  rfl

set_option maxRecDepth 10000 in
/-- Witness for C7 on a page where the anchor `certificado` and the word
`aptitud` are adjacent (well inside any window) but no modifier occurs. -/
theorem proximity_requires_modifier_witness :
    search_cert_proximity ("certificado de aptitud".toList) = false :=
  proximity_requires_modifier ("certificado de aptitud".toList)
    (by decide) (by decide)

/-- C9: an empty page ordering produces no document: `write_pdf_to_bytes`
returns the empty byte string for the empty index list, whatever the
external writer would build, and the app presents that outcome as a
disabled download button — an expected outcome, not an error. -/
theorem empty_ordering_no_document (build : List Nat → List UInt8) :
    write_pdf_to_bytes build [] = []
    ∧ download_button_state (write_pdf_to_bytes build []) = ButtonState.disabledNoPages := by
  constructor <;> rfl

/-- C10: rule B of the proximity matcher is redundant: the full matcher
agrees with the variant consisting of just the modifier short-circuit and
rule A, because at any anchor where rule B's window condition holds
(modifier and `aptitud` in the window), rule A's condition (`aptitud` in
the window) already holds for that same anchor. -/
theorem any_and_false {α : Type} (l : List α) (p q : α → Bool)
    (h : l.any q = false) : l.any (fun e => p e && q e) = false := by
  rw [List.any_eq_false] at h ⊢
  intro e he hc
  exact h e he (Bool.and_eq_true_iff.mp hc).2

theorem proximity_ruleB_redundant (s : Str) :
    search_cert_proximity s = search_cert_proximity_ruleA s := by
  simp only [search_cert_proximity, search_cert_proximity_ruleA]
  cases hm : (containsStr ("medic".toList) s || containsStr ("ocupacional".toList) s)
  · rfl
  · cases hA : (certAnchorEnds s).any
        (fun e => searchWord ("aptitud".toList) (windowAfter s e))
    · have hB := any_and_false (certAnchorEnds s)
        (fun e => modInWindow (windowAfter s e))
        (fun e => searchWord ("aptitud".toList) (windowAfter s e)) hA
      rw [hB]
      rfl
    · rfl

/-- C8: a page whose extracted text is empty fails every classification
rule — `is_cert_page` and `is_info_page` are both `false` on the empty
string (each function returns a value; in the source no exception can arise
since every rule merely pattern-matches) — so its index lands in neither
the CERTIFICATE nor the REPORT set, ends up in the residual OTHER set, and
its log entry records OTROS. -/
theorem empty_page_is_other (u : UModel) (texts : List Str) (i : Nat)
    (hi : i < texts.length) (hempty : texts.getD i [] = []) :
    is_cert_page u [] = false ∧ is_info_page u [] = false
    ∧ i ∉ (classify_pages u texts).1 ∧ i ∉ (classify_pages u texts).2.1
    ∧ i ∈ hist_set texts.length (classify_pages u texts).1 (classify_pages u texts).2.1
    ∧ LogEntry.page i Category.otros ∈ (classify_pages u texts).2.2 := by
  rw [classify_pages_eq_loop]
  have hcert : i ∉ (classifyLoop u 0 texts).1 := by
    intro hmem
    rw [classifyLoop_mem_cert] at hmem
    have h := hmem.2.2
    simp only [Nat.sub_zero] at h
    rw [hempty] at h
    exact absurd h (by exact Bool.noConfusion)
  have hinfo : i ∉ (classifyLoop u 0 texts).2.1 := by
    intro hmem
    rw [classifyLoop_mem_info] at hmem
    have h := hmem.2.2.2
    simp only [Nat.sub_zero] at h
    rw [hempty] at h
    exact absurd h (by exact Bool.noConfusion)
  refine ⟨rfl, rfl, hcert, hinfo, ?_, ?_⟩
  · simp only [hist_set, Finset.mem_sdiff, Finset.mem_range]
    exact ⟨⟨hi, hcert⟩, hinfo⟩
  · rw [classifyLoop_log]
    refine List.mem_map.mpr ⟨i, List.mem_range.mpr hi, ?_⟩
    rw [hempty, Nat.zero_add]
    rfl

/-- Witness for C8: a two-page document whose second page has empty text. -/
theorem empty_page_is_other_witness :
    is_cert_page uId [] = false ∧ is_info_page uId [] = false
    ∧ 1 ∉ (classify_pages uId [dualText, []]).1
    ∧ 1 ∉ (classify_pages uId [dualText, []]).2.1
    ∧ 1 ∈ hist_set 2 (classify_pages uId [dualText, []]).1
        (classify_pages uId [dualText, []]).2.1
    ∧ LogEntry.page 1 Category.otros ∈ (classify_pages uId [dualText, []]).2.2 :=
  empty_page_is_other uId [dualText, []] 1 (by decide) rfl

theorem asciiElim (P : Char → Bool) (hP : ∀ n : Fin 128, P (Char.ofNat n.val) = true)
    (c : Char) (hc : c.toNat < 128) : P c = true := by
  have h := hP ⟨c.toNat, hc⟩
  simpa using h

theorem alnum_lt128 (c : Char) (h : c.isAlphanum = true) : c.toNat < 128 := by
  simp only [Char.isAlphanum, Char.isAlpha, Char.isUpper, Char.isLower, Char.isDigit,
    Bool.or_eq_true, Bool.and_eq_true, decide_eq_true_eq, UInt32.le_def, BitVec.le_def,
    Char.toNat] at h ⊢
  rcases h with (⟨h1, h2⟩ | ⟨h1, h2⟩) | ⟨h1, h2⟩ <;> simp_all [UInt32.toNat] <;> omega

theorem toLower_alnum (c : Char) (h : c.isAlphanum = true) :
    (Char.toLower c).isAlphanum = true := by
  have h2 := asciiElim (fun c => !c.isAlphanum || (Char.toLower c).isAlphanum)
    (by decide) c (alnum_lt128 c h)
  simpa [h] using h2

theorem toLower_idem (c : Char) (h : c.isAlphanum = true) :
    Char.toLower (Char.toLower c) = Char.toLower c := by
  have h2 := asciiElim
    (fun c => !c.isAlphanum || (Char.toLower (Char.toLower c) == Char.toLower c))
    (by decide) c (alnum_lt128 c h)
  simp only [h, Bool.not_true, Bool.false_or, beq_iff_eq] at h2
  exact h2

theorem alnum_not_ws (c : Char) (h : c.isAlphanum = true) :
    c.isWhitespace = false := by
  have h2 := asciiElim (fun c => !c.isAlphanum || !c.isWhitespace)
    (by decide) c (alnum_lt128 c h)
  simpa [h] using h2

theorem toLower_outChar (c : Char) (h : midChar c = true) :
    outChar (Char.toLower c) = true := by
  simp only [midChar, Bool.or_eq_true, beq_iff_eq] at h
  rcases h with h | rfl
  · simp [outChar, toLower_alnum c h, toLower_idem c h]
  · decide

theorem outChar_fix (c : Char) (h : outChar c = true) : Char.toLower c = c := by
  simp only [outChar, Bool.or_eq_true, Bool.and_eq_true, beq_iff_eq] at h
  rcases h with ⟨-, h⟩ | rfl
  · exact h
  · decide

theorem outChar_cases (c : Char) (h : outChar c = true) :
    c.isAlphanum = true ∨ c = ' ' := by
  simp only [outChar, Bool.or_eq_true, Bool.and_eq_true, beq_iff_eq] at h
  rcases h with ⟨h, -⟩ | rfl
  · exact Or.inl h
  · exact Or.inr rfl

theorem outChar_ws_eq_space (c : Char) (ho : outChar c = true)
    (hw : c.isWhitespace = true) : c = ' ' := by
  rcases outChar_cases c ho with h | rfl
  · rw [alnum_not_ws c h] at hw
    exact absurd hw Bool.noConfusion
  · rfl

theorem outChar_not_ws (c : Char) (ho : outChar c = true) (hne : c ≠ ' ') :
    c.isWhitespace = false := by
  cases hw : c.isWhitespace
  · rfl
  · exact absurd (outChar_ws_eq_space c ho hw) hne

theorem noDblWs_cons (a : Char) (t : Str) (ht : noDblWs t = true)
    (h : a.isWhitespace = true → headNotWs t = true) : noDblWs (a :: t) = true := by
  cases t with
  | nil => rfl
  | cons b t' =>
    simp only [noDblWs, Bool.and_eq_true]
    refine ⟨?_, ht⟩
    cases hwa : a.isWhitespace
    · simp
    · have hb := h hwa
      simp only [headNotWs, Bool.not_eq_true'] at hb
      simp [hb]

theorem noDblWs_tail (a : Char) (t : Str) (h : noDblWs (a :: t) = true) :
    noDblWs t = true := by
  cases t with
  | nil => rfl
  | cons b t' =>
    simp only [noDblWs, Bool.and_eq_true] at h
    exact h.2

theorem noDblWs_head (a : Char) (t : Str) (h : noDblWs (a :: t) = true)
    (hwa : a.isWhitespace = true) : headNotWs t = true := by
  cases t with
  | nil => rfl
  | cons b t' =>
    simp only [noDblWs, Bool.and_eq_true] at h
    have h1 := h.1
    rw [hwa] at h1
    simp only [headNotWs, Bool.not_eq_true']
    simpa using h1

theorem lowSub_shape (s : Str) : ∀ b,
    (∀ c ∈ List.map Char.toLower (subRunsAux b s), outChar c = true)
    ∧ noDblWs (List.map Char.toLower (subRunsAux b s)) = true
    ∧ (b = true → headNotWs (List.map Char.toLower (subRunsAux b s)) = true) := by
  induction s with
  | nil =>
    intro b
    refine ⟨by simp [subRunsAux], by simp [subRunsAux, noDblWs], fun _ => by simp [subRunsAux, headNotWs]⟩
  | cons c cs ih =>
    intro b
    by_cases hc : c.isAlphanum = true
    · have he : subRunsAux b (c :: cs) = c :: subRunsAux false cs := by
        simp [subRunsAux, hc]
      obtain ⟨ih1, ih2, -⟩ := ih false
      have hlownws : (Char.toLower c).isWhitespace = false :=
        alnum_not_ws _ (toLower_alnum c hc)
      rw [he, List.map_cons]
      refine ⟨?_, ?_, ?_⟩
      · intro d hd
        rcases List.mem_cons.mp hd with rfl | hd
        · exact toLower_outChar c (by simp [midChar, hc])
        · exact ih1 d hd
      · refine noDblWs_cons _ _ ih2 ?_
        intro hw
        rw [hlownws] at hw
        exact absurd hw Bool.noConfusion
      · intro _
        simp [headNotWs, hlownws]
    · cases b with
      | true =>
        have he : subRunsAux true (c :: cs) = subRunsAux true cs := by
          simp [subRunsAux, hc]
        rw [he]
        obtain ⟨ih1, ih2, ih3⟩ := ih true
        exact ⟨ih1, ih2, fun _ => ih3 rfl⟩
      | false =>
        have he : subRunsAux false (c :: cs) = ' ' :: subRunsAux true cs := by
          simp [subRunsAux, hc]
        obtain ⟨ih1, ih2, ih3⟩ := ih true
        rw [he, List.map_cons]
        have hsp : Char.toLower ' ' = ' ' := by decide
        rw [hsp]
        refine ⟨?_, ?_, ?_⟩
        · intro d hd
          rcases List.mem_cons.mp hd with rfl | hd
          · decide
          · exact ih1 d hd
        · exact noDblWs_cons _ _ ih2 (fun _ => ih3 rfl)
        · intro hb
          exact absurd hb Bool.noConfusion

theorem noDblWs_dropWhile (p : Char → Bool) (t : Str) (h : noDblWs t = true) :
    noDblWs (t.dropWhile p) = true := by
  induction t with
  | nil => exact h
  | cons a t ih =>
    by_cases ha : p a = true
    · rw [List.dropWhile_cons_of_pos ha]
      exact ih (noDblWs_tail _ _ h)
    · rw [List.dropWhile_cons_of_neg (by simpa using ha)]
      exact h

theorem headNotWs_dropWhileWs (t : Str) :
    headNotWs (t.dropWhile Char.isWhitespace) = true := by
  induction t with
  | nil => rfl
  | cons a t ih =>
    by_cases ha : a.isWhitespace = true
    · rw [List.dropWhile_cons_of_pos ha]
      exact ih
    · rw [List.dropWhile_cons_of_neg (by simpa using ha)]
      simp only [headNotWs, Bool.not_eq_true']
      simpa using ha

theorem dTW_cases (c : Char) (cs : Str) :
    dropTrailingWs (c :: cs) = []
    ∨ dropTrailingWs (c :: cs) = c :: dropTrailingWs cs := by
  by_cases h : ((dropTrailingWs cs).isEmpty && c.isWhitespace) = true
  · left
    simp [dropTrailingWs, h]
  · right
    simp only [dropTrailingWs]
    rw [if_neg (by simpa using h)]

theorem mem_dTW (t : Str) (c : Char) (h : c ∈ dropTrailingWs t) : c ∈ t := by
  induction t with
  | nil => simp [dropTrailingWs] at h
  | cons a t ih =>
    rcases dTW_cases a t with he | he
    · rw [he] at h
      exact absurd h (List.not_mem_nil c)
    · rw [he] at h
      rcases List.mem_cons.mp h with rfl | h
      · exact List.mem_cons_self _ _
      · exact List.mem_cons_of_mem _ (ih h)

theorem headNotWs_dTW (t : Str) (h : headNotWs t = true) :
    headNotWs (dropTrailingWs t) = true := by
  cases t with
  | nil => rfl
  | cons a t =>
    rcases dTW_cases a t with he | he
    · rw [he]; rfl
    · rw [he]
      exact h

theorem noDblWs_dTW (t : Str) (h : noDblWs t = true) :
    noDblWs (dropTrailingWs t) = true := by
  induction t with
  | nil => rfl
  | cons a t ih =>
    rcases dTW_cases a t with he | he
    · rw [he]; rfl
    · rw [he]
      refine noDblWs_cons _ _ (ih (noDblWs_tail _ _ h)) ?_
      intro hwa
      exact headNotWs_dTW t (noDblWs_head _ _ h hwa)

theorem lastNotWs_cons_of_ne (c : Char) (t : Str) (h : t ≠ []) :
    lastNotWs (c :: t) = lastNotWs t := by
  cases t with
  | nil => exact absurd rfl h
  | cons b t' => rfl

theorem lastNotWs_dTW (t : Str) : lastNotWs (dropTrailingWs t) = true := by
  induction t with
  | nil => rfl
  | cons c cs ih =>
    by_cases h : ((dropTrailingWs cs).isEmpty && c.isWhitespace) = true
    · have he : dropTrailingWs (c :: cs) = [] := by simp [dropTrailingWs, h]
      rw [he]; rfl
    · have he : dropTrailingWs (c :: cs) = c :: dropTrailingWs cs := by
        simp only [dropTrailingWs]
        rw [if_neg (by simpa using h)]
      rw [he]
      cases hr : dropTrailingWs cs with
      | nil =>
        rw [hr] at h
        simp only [List.isEmpty_nil, Bool.true_and, Bool.not_eq_true] at h
        simp [lastNotWs, h]
      | cons d r' =>
        rw [lastNotWs_cons_of_ne c _ (by simp [hr])]
        rw [hr] at ih
        exact ih

theorem flatMap_id_on (u : UModel) (t : Str) (h : ∀ c ∈ t, u.nfd c = [c]) :
    t.flatMap u.nfd = t := by
  induction t with
  | nil => rfl
  | cons a t ih =>
    rw [List.flatMap_cons, h a (List.mem_cons_self _ _),
      ih (fun c hc => h c (List.mem_cons_of_mem _ hc))]
    rfl

theorem filter_id_on (u : UModel) (t : Str) (h : ∀ c ∈ t, u.mn c = false) :
    t.filter (fun c => !u.mn c) = t := by
  induction t with
  | nil => rfl
  | cons a t ih =>
    rw [List.filter_cons]
    rw [if_pos (by simp [h a (List.mem_cons_self _ _)])]
    rw [ih (fun c hc => h c (List.mem_cons_of_mem _ hc))]

theorem subRunsAux_id (t : Str) : ∀ b, (∀ c ∈ t, outChar c = true) →
    noDblWs t = true → (b = true → headNotWs t = true) → subRunsAux b t = t := by
  induction t with
  | nil => intro b _ _ _; rfl
  | cons c cs ih =>
    intro b hall hnd hhd
    rcases outChar_cases c (hall c (List.mem_cons_self _ _)) with hc | rfl
    · have he : subRunsAux b (c :: cs) = c :: subRunsAux false cs := by
        simp [subRunsAux, hc]
      rw [he, ih false (fun d hd => hall d (List.mem_cons_of_mem _ hd))
        (noDblWs_tail _ _ hnd) (fun hb => absurd hb Bool.noConfusion)]
    · cases b with
      | true =>
        have := hhd rfl
        simp [headNotWs] at this
      | false =>
        have he : subRunsAux false (' ' :: cs) = ' ' :: subRunsAux true cs := by
          simp [subRunsAux]
        rw [he, ih true (fun d hd => hall d (List.mem_cons_of_mem _ hd))
          (noDblWs_tail _ _ hnd) (fun _ => noDblWs_head _ _ hnd (by decide))]

theorem map_toLower_id (t : Str) (h : ∀ c ∈ t, outChar c = true) :
    List.map Char.toLower t = t := by
  induction t with
  | nil => rfl
  | cons a t ih =>
    rw [List.map_cons, outChar_fix a (h a (List.mem_cons_self _ _)),
      ih (fun c hc => h c (List.mem_cons_of_mem _ hc))]

theorem dropWhileWs_id (t : Str) (h : headNotWs t = true) :
    t.dropWhile Char.isWhitespace = t := by
  cases t with
  | nil => rfl
  | cons a t =>
    simp only [headNotWs, Bool.not_eq_true'] at h
    rw [List.dropWhile_cons_of_neg (by simp [h])]

theorem dTW_id (t : Str) (h : lastNotWs t = true) : dropTrailingWs t = t := by
  induction t with
  | nil => rfl
  | cons c cs ih =>
    cases hcs : cs with
    | nil =>
      subst hcs
      simp only [lastNotWs, Bool.not_eq_true'] at h
      simp [dropTrailingWs, h]
    | cons d cs' =>
      subst hcs
      rw [lastNotWs_cons_of_ne c _ (by simp)] at h
      have hr := ih h
      rw [dropTrailingWs, hr]
      simp

theorem collapseWsAux_id (t : Str) : ∀ b, (∀ c ∈ t, outChar c = true) →
    noDblWs t = true → (b = true → headNotWs t = true) → collapseWsAux b t = t := by
  induction t with
  | nil => intro b _ _ _; rfl
  | cons c cs ih =>
    intro b hall hnd hhd
    cases hw : c.isWhitespace
    · have he : collapseWsAux b (c :: cs) = c :: collapseWsAux false cs := by
        simp [collapseWsAux, hw]
      rw [he, ih false (fun d hd => hall d (List.mem_cons_of_mem _ hd))
        (noDblWs_tail _ _ hnd) (fun hb => absurd hb Bool.noConfusion)]
    · have hsp := outChar_ws_eq_space c (hall c (List.mem_cons_self _ _)) hw
      subst hsp
      cases b with
      | true =>
        have := hhd rfl
        simp [headNotWs, hw] at this
      | false =>
        have he : collapseWsAux false (' ' :: cs) = ' ' :: collapseWsAux true cs := by
          simp [collapseWsAux, hw]
        rw [he, ih true (fun d hd => hall d (List.mem_cons_of_mem _ hd))
          (noDblWs_tail _ _ hnd) (fun _ => noDblWs_head _ _ hnd hw)]

theorem normalize_canonical (u : UModel) (s : Str) :
    (∀ c ∈ normalize_text_hard u s, outChar c = true)
    ∧ noDblWs (normalize_text_hard u s) = true
    ∧ headNotWs (normalize_text_hard u s) = true
    ∧ lastNotWs (normalize_text_hard u s) = true := by
  by_cases hs : s.isEmpty
  · simp only [normalize_text_hard, if_pos hs]
    exact ⟨by simp, rfl, rfl, rfl⟩
  · simp only [normalize_text_hard, if_neg hs, stripStr, subRuns, collapseWs]
    generalize ((s.flatMap u.nfd).filter (fun c => !u.mn c)) = base
    obtain ⟨h1, h2, -⟩ := lowSub_shape base false
    have hd1 : ∀ c ∈ (List.map Char.toLower (subRunsAux false base)).dropWhile
        Char.isWhitespace, outChar c = true :=
      fun c hc => h1 c (List.dropWhile_subset _ hc)
    have hd2 := noDblWs_dropWhile Char.isWhitespace _ h2
    have hd3 := headNotWs_dropWhileWs (List.map Char.toLower (subRunsAux false base))
    have h31 : ∀ c ∈ dropTrailingWs ((List.map Char.toLower
        (subRunsAux false base)).dropWhile Char.isWhitespace), outChar c = true :=
      fun c hc => hd1 c (mem_dTW _ _ hc)
    have h32 := noDblWs_dTW _ hd2
    have h33 := headNotWs_dTW _ hd3
    have h34 := lastNotWs_dTW ((List.map Char.toLower
      (subRunsAux false base)).dropWhile Char.isWhitespace)
    rw [collapseWsAux_id _ false h31 h32 (fun hb => absurd hb Bool.noConfusion)]
    exact ⟨h31, h32, h33, h34⟩

theorem normalize_id_on_canonical (u : UModel) (t : Str)
    (hnfd : ∀ c, outChar c = true → u.nfd c = [c])
    (hmn : ∀ c, outChar c = true → u.mn c = false)
    (hall : ∀ c ∈ t, outChar c = true) (hnd : noDblWs t = true)
    (hhd : headNotWs t = true) (hlast : lastNotWs t = true) :
    normalize_text_hard u t = t := by
  by_cases ht : t.isEmpty
  · simp only [normalize_text_hard, if_pos ht]
    exact (List.isEmpty_iff.mp ht).symm
  · simp only [normalize_text_hard, if_neg ht, stripStr, subRuns, collapseWs]
    rw [flatMap_id_on u t (fun c hc => hnfd c (hall c hc)),
      filter_id_on u t (fun c hc => hmn c (hall c hc)),
      subRunsAux_id t false hall hnd (fun hb => absurd hb Bool.noConfusion),
      map_toLower_id t hall, dropWhileWs_id t hhd, dTW_id t hlast]
    exact collapseWsAux_id t false hall hnd (fun hb => absurd hb Bool.noConfusion)

/-- C6: the text normalizer is idempotent — normalizing already-normalized
text returns it unchanged — and empty input normalizes to the empty string.
The two hypotheses pin down the modelled Unicode facilities on the
normalizer's own output alphabet (lowercase ASCII alphanumerics and the
space): canonical decomposition leaves each such character unchanged, and
none of them is a combining mark; both are true of the real Unicode
tables, so the hypotheses hold for the real `unicodedata` collaborator. -/
theorem normalize_idempotent (u : UModel)
    (hnfd : ∀ c, outChar c = true → u.nfd c = [c])
    (hmn : ∀ c, outChar c = true → u.mn c = false) (s : Str) :
    normalize_text_hard u (normalize_text_hard u s) = normalize_text_hard u s
    ∧ normalize_text_hard u [] = [] := by
  obtain ⟨h1, h2, h3, h4⟩ := normalize_canonical u s
  exact ⟨normalize_id_on_canonical u _ hnfd hmn h1 h2 h3 h4, rfl⟩

/-- Witness for C6 on a concrete messy ASCII string (mixed case, repeated
separators, leading/trailing junk), under the identity Unicode model, which
satisfies both hypotheses definitionally. -/
theorem normalize_idempotent_witness :
    normalize_text_hard uId
        (normalize_text_hard uId ("  Certificado   de APTITUD 123!!".toList))
      = normalize_text_hard uId ("  Certificado   de APTITUD 123!!".toList)
    ∧ normalize_text_hard uId [] = [] :=
  normalize_idempotent uId (fun _ _ => rfl) (fun _ _ => rfl)
    ("  Certificado   de APTITUD 123!!".toList)
